import Mathlib

/-!
Shallow embedding of the TurboGorilla uncompressed time-series chunk
(`src/turbogorilla_chunk.c`) and proofs about its operations.

Modelling conventions:
* `u_int64_t` timestamps are `Nat` (all comparisons done by the code are the
  same on `Nat`; the only wrap-around, the `-1` sentinel cast to the unsigned
  `timestamp_t`, is written out as `2^64 - 1`).
* `double` values are only ever moved and compared for storage, never
  arithmetically manipulated, so each value is modelled by its 64-bit
  pattern as a `Nat`.
* The two backing buffers are modelled by the list of their first
  `num_samples` initialized cells (`buffer_ts`, `buffer_values`), plus the
  allocated byte capacity of each physical allocation (`ts_cap`,
  `values_cap`) so that `malloc`/`realloc` sizing behaviour is visible.
* Reads of uninitialized or out-of-bounds memory are undefined behaviour in
  the C; operations that would perform one return `none`.
* Fields the C leaves uninitialized (`start_ts` of a fresh chunk) take their
  garbage content as an explicit parameter.
-/

namespace TurboGorilla

/-- `SAMPLE_SIZE = sizeof(u_int64_t) + sizeof(double) = 16` bytes. -/
def SAMPLE_SIZE : Nat := 16

/-- Modulus of the unsigned 64-bit `timestamp_t`. -/
def U64_MOD : Nat := 2 ^ 64

/-- `ChunkResult` return codes (`CR_OK`, `CR_END`, `CR_ERR`). -/
inductive ChunkResult : Type
  | CR_OK : ChunkResult
  | CR_END : ChunkResult
  | CR_ERR : ChunkResult
deriving DecidableEq, Repr

/-- `struct TurboGorilla_Chunk`.  `buffer_ts`/`buffer_values` hold the
initialized prefix (the logical samples); `ts_cap`/`values_cap` are the byte
sizes of the two heap allocations backing them. -/
structure Chunk : Type where
  start_ts : Nat
  num_samples : Nat
  size : Nat
  buffer_in_use : Bool
  buffer_ts : List Nat
  buffer_values : List Nat
  ts_cap : Nat
  values_cap : Nat
deriving DecidableEq, Repr

/-- `TurboGorilla_NewChunk(size)`: empty chunk, both buffers `malloc(size/2)`
bytes; `start_ts` is left uninitialized by the C, so its garbage content is a
parameter. -/
def TurboGorilla_NewChunk (size : Nat) (garbage_start_ts : Nat) : Chunk :=
  { start_ts := garbage_start_ts
    num_samples := 0
    size := size
    buffer_in_use := true
    buffer_ts := []
    buffer_values := []
    ts_cap := size / 2
    values_cap := size / 2 }

/-- `IsChunkFull`: `num_samples == size / SAMPLE_SIZE`. -/
def IsChunkFull (c : Chunk) : Bool :=
  c.num_samples == c.size / SAMPLE_SIZE

/-- `TurboGorilla_NumOfSample`. -/
def TurboGorilla_NumOfSample (c : Chunk) : Nat :=
  c.num_samples

/-- `TurboGorilla_GetLastTimestamp`: `-1` (cast to the unsigned
`timestamp_t`, i.e. `2^64 - 1`) when empty, else `buffer_ts[num_samples-1]`. -/
def TurboGorilla_GetLastTimestamp (c : Chunk) : Nat :=
  if c.num_samples = 0 then U64_MOD - 1
  else c.buffer_ts.getD (c.num_samples - 1) 0

/-- `TurboGorilla_GetFirstTimestamp`: `-1` (i.e. `2^64 - 1`) when empty,
else `buffer_ts[0]`. -/
def TurboGorilla_GetFirstTimestamp (c : Chunk) : Nat :=
  if c.num_samples = 0 then U64_MOD - 1
  else c.buffer_ts.getD 0 0

/-- `TurboGorilla_GetSampleValueAtPos`: `CR_OK` and the value when
`pos < num_samples`, else `CR_ERR`. -/
def TurboGorilla_GetSampleValueAtPos (c : Chunk) (pos : Nat) :
    ChunkResult × Option Nat :=
  if pos < c.num_samples then (ChunkResult.CR_OK, c.buffer_values.get? pos)
  else (ChunkResult.CR_ERR, none)

/-- `TurboGorilla_GetSampleTimestampAtPos`. -/
def TurboGorilla_GetSampleTimestampAtPos (c : Chunk) (pos : Nat) :
    ChunkResult × Option Nat :=
  if pos < c.num_samples then (ChunkResult.CR_OK, c.buffer_ts.get? pos)
  else (ChunkResult.CR_ERR, none)

/-- `TurboGorilla_AddSampleOptimized`: `CR_END` when full (chunk untouched);
otherwise write the sample at index `num_samples` (an append of the
initialized prefix), setting `start_ts` on the very first sample. -/
def TurboGorilla_AddSampleOptimized (c : Chunk) (timestamp value : Nat) :
    ChunkResult × Chunk :=
  if IsChunkFull c then (ChunkResult.CR_END, c)
  else
    let c := if c.num_samples = 0 then { c with start_ts := timestamp } else c
    (ChunkResult.CR_OK,
      { c with
        buffer_ts := c.buffer_ts ++ [timestamp]
        buffer_values := c.buffer_values ++ [value]
        num_samples := c.num_samples + 1 })

/-- Folding `TurboGorilla_AddSampleOptimized` over a list of samples (the
copy loop of `TurboGorilla_SplitChunk`). -/
def addSamples (c : Chunk) : List (Nat × Nat) → Chunk
  | [] => c
  | (t, v) :: rest => addSamples (TurboGorilla_AddSampleOptimized c t v).2 rest

/-- `TurboGorilla_SplitChunk`: the new right chunk gets the tail
`num_samples / 2` samples via `TurboGorilla_AddSampleOptimized`; the original
is truncated to the remaining head, `size` and both buffer reallocations
shrunk to exactly that many samples.  The fresh chunk's uninitialized
`start_ts` garbage is a parameter. -/
def TurboGorilla_SplitChunk (c : Chunk) (garbage_start_ts : Nat) :
    Chunk × Chunk :=
  let newChunkNumSamples := c.num_samples / 2
  let currentChunkNumSamples := c.num_samples - newChunkNumSamples
  let tail_samples :=
    ((c.buffer_ts.take c.num_samples).drop currentChunkNumSamples).zip
      ((c.buffer_values.take c.num_samples).drop currentChunkNumSamples)
  let newChunk :=
    addSamples (TurboGorilla_NewChunk (newChunkNumSamples * SAMPLE_SIZE)
      garbage_start_ts) tail_samples
  let left :=
    { c with
      num_samples := currentChunkNumSamples
      size := currentChunkNumSamples * SAMPLE_SIZE
      buffer_ts := c.buffer_ts.take currentChunkNumSamples
      buffer_values := c.buffer_values.take currentChunkNumSamples
      ts_cap := currentChunkNumSamples * 8
      values_cap := currentChunkNumSamples * 8 }
  (left, newChunk)

/-- `upsertChunk(chunk, idx, ts, value)`: grow by one `SAMPLE_SIZE` when
full (each buffer `realloc`ed to `size/2 + 8` bytes), shift the samples at
`idx..` one slot right and write the new sample at `idx`. -/
def upsertChunk (c : Chunk) (idx : Nat) (ts value : Nat) : Chunk :=
  let c :=
    if IsChunkFull c then
      { c with
        size := c.size + SAMPLE_SIZE
        ts_cap := (c.size + SAMPLE_SIZE) / 2 + 8
        values_cap := (c.size + SAMPLE_SIZE) / 2 + 8 }
    else c
  { c with
    buffer_ts := c.buffer_ts.take idx ++ ts :: c.buffer_ts.drop idx
    buffer_values := c.buffer_values.take idx ++ value :: c.buffer_values.drop idx
    num_samples := c.num_samples + 1 }

/-- `TurboGorilla_UpsertSample`.  `resolve old new` models the injected
`handleDuplicateSample(duplicatePolicy, old, &new)`: `none` for a conflict
(`cr != CR_OK`), `some v` for the resolved value written back through the
context.  Returns `(ChunkResult, chunk after, *size)`. -/
def TurboGorilla_UpsertSample (resolve : Nat → Nat → Option Nat)
    (c : Chunk) (ts value : Nat) : ChunkResult × Chunk × Nat :=
  let numSamples := c.num_samples
  let sample_pos :=
    (c.buffer_ts.take numSamples).countP (fun x => decide (x < ts))
  let found := sample_pos < numSamples ∧ c.buffer_ts.get? sample_pos = some ts
  if found then
    match resolve (c.buffer_values.getD sample_pos 0) value with
    | none => (ChunkResult.CR_ERR, c, 0)
    | some v =>
      (ChunkResult.CR_OK,
        { c with buffer_values := c.buffer_values.set sample_pos v }, 0)
  else
    let c := if sample_pos = 0 then { c with start_ts := ts } else c
    (ChunkResult.CR_OK, upsertChunk c sample_pos ts value, 1)

/-- `TurboGorilla_DelRange`: copy the samples outside `[startTs, endTs]`
into two fresh `malloc(size/2)` buffers, install them, and return the number
deleted.  The C then reads `new_buffer_ts[0]` to refresh `start_ts` even
when zero samples survive — an out-of-bounds read, modelled as `none`. -/
def TurboGorilla_DelRange (c : Chunk) (startTs endTs : Nat) :
    Option (Nat × Chunk) :=
  let array_size := c.size / 2
  let pairs := (c.buffer_ts.take c.num_samples).zip
    (c.buffer_values.take c.num_samples)
  let survivors :=
    pairs.filter (fun p => !(decide (startTs ≤ p.1) && decide (p.1 ≤ endTs)))
  let new_count := survivors.length
  let deleted_count := c.num_samples - new_count
  match survivors.map Prod.fst with
  | [] => none
  | t0 :: _ =>
    some (deleted_count,
      { c with
        buffer_ts := survivors.map Prod.fst
        buffer_values := survivors.map Prod.snd
        num_samples := new_count
        start_ts := t0
        ts_cap := array_size
        values_cap := array_size })

/-- One item produced by an injected primitive writer: either a 64-bit
unsigned integer or a length-prefixed raw byte buffer.  Buffers are written
and read in whole 8-byte words here (`saveString` lengths are always
`num_samples * 8`), so a buffer is the list of its 64-bit words. -/
inductive SerItem : Type
  | unsigned (n : Nat) : SerItem
  | strbuf (words : List Nat) : SerItem
deriving DecidableEq, Repr

/-- `TurboGorilla_GenericSerialize`: `size`, `start_ts`, `num_samples`,
`buffer_in_use`, then `num_samples * 8` bytes of each buffer. -/
def TurboGorilla_GenericSerialize (c : Chunk) : List SerItem :=
  [ SerItem.unsigned c.size,
    SerItem.unsigned c.start_ts,
    SerItem.unsigned c.num_samples,
    SerItem.unsigned (if c.buffer_in_use then 1 else 0),
    SerItem.strbuf (c.buffer_ts.take c.num_samples),
    SerItem.strbuf (c.buffer_values.take c.num_samples) ]

/-- A faithful `ReadUnsignedFunc`: consume one unsigned item. -/
def readUnsigned : List SerItem → Option (Nat × List SerItem)
  | SerItem.unsigned n :: rest => some (n, rest)
  | _ => none

/-- A faithful `ReadStringBufferFunc`: consume one buffer item. -/
def readStringBuffer : List SerItem → Option (List Nat × List SerItem)
  | SerItem.strbuf b :: rest => some (b, rest)
  | _ => none

/-- `TurboGorilla_Deserialize` with faithful primitive readers: allocate a
chunk of the declared `size`, then overwrite its fields and replace its
fresh buffers wholesale with the two loaded buffers (their allocations
become the chunk's, so the capacities are the loaded byte lengths).  No
consistency check between `num_samples`, `size` and the loaded lengths is
performed. -/
def TurboGorilla_Deserialize (stream : List SerItem)
    (garbage_start_ts : Nat) : Option Chunk := do
  let (size, s) ← readUnsigned stream
  let c0 := TurboGorilla_NewChunk size garbage_start_ts
  let (st, s) ← readUnsigned s
  let (ns, s) ← readUnsigned s
  let (iu, s) ← readUnsigned s
  let (ts_buf, s) ← readStringBuffer s
  let (vs_buf, _) ← readStringBuffer s
  pure
    { c0 with
      start_ts := st
      num_samples := ns
      buffer_in_use := iu ≠ 0
      buffer_ts := ts_buf
      buffer_values := vs_buf
      ts_cap := ts_buf.length * 8
      values_cap := vs_buf.length * 8 }

/-- The data-model invariants of a chunk (spec §3): parallel buffers of
logical length `num_samples`, strictly ascending timestamps, logical bytes
within capacity, and `start_ts` caching the first timestamp. -/
def ChunkWF (c : Chunk) : Prop :=
  c.buffer_ts.length = c.num_samples ∧
  c.buffer_values.length = c.num_samples ∧
  c.buffer_ts.Sorted (· < ·) ∧
  c.num_samples * SAMPLE_SIZE ≤ c.size ∧
  (0 < c.num_samples → c.buffer_ts.get? 0 = some c.start_ts)

instance (c : Chunk) : Decidable (ChunkWF c) := by
  unfold ChunkWF
  infer_instance

/-! ### Concrete chunks used by witnesses and counterexamples -/

/-- A well-formed chunk holding three samples with one sample of slack. -/
def wchunk3 : Chunk :=
  { start_ts := 10
    num_samples := 3
    size := 64
    buffer_in_use := true
    buffer_ts := [10, 20, 30]
    buffer_values := [1, 2, 3]
    ts_cap := 32
    values_cap := 32 }

/-- A well-formed chunk at full capacity (two samples, 32 bytes). -/
def wchunkFull : Chunk :=
  { start_ts := 10
    num_samples := 2
    size := 32
    buffer_in_use := true
    buffer_ts := [10, 20]
    buffer_values := [1, 2]
    ts_cap := 16
    values_cap := 16 }

/-- A well-formed chunk holding a single sample. -/
def wchunk1 : Chunk :=
  { start_ts := 5
    num_samples := 1
    size := 16
    buffer_in_use := true
    buffer_ts := [5]
    buffer_values := [7]
    ts_cap := 8
    values_cap := 8 }

/-- The chunk left after `TurboGorilla_DelRange wchunkFull 20 20`: one
surviving sample, but `size` still 32 bytes and both buffers reallocated at
`32 / 2 = 16` bytes — the slack is retained. -/
def wchunkFullDel : Chunk :=
  { start_ts := 10
    num_samples := 1
    size := 32
    buffer_in_use := true
    buffer_ts := [10]
    buffer_values := [1]
    ts_cap := 16
    values_cap := 16 }

/-- The chunk produced by `TurboGorilla_Deserialize` on a stream declaring
`num_samples = 5` but carrying empty buffers. -/
def corruptChunk : Chunk :=
  { start_ts := 0
    num_samples := 5
    size := 64
    buffer_in_use := true
    buffer_ts := []
    buffer_values := []
    ts_cap := 0
    values_cap := 0 }

/-- LAST-style duplicate policy: always keep the incoming value. -/
def resolveLast : Nat → Nat → Option Nat := fun _ new => some new

/-- BLOCK-style duplicate policy: always a conflict. -/
def resolveBlock : Nat → Nat → Option Nat := fun _ _ => none

/-! ### Helper lemmas about lists -/

lemma take_of_length_eq {α : Type _} {l : List α} {n : Nat} (h : l.length = n) :
    l.take n = l := by
  subst h
  exact l.take_length

lemma countP_lt_le_length (l : List Nat) (ts : Nat) :
    l.countP (fun x => decide (x < ts)) ≤ l.length :=
  l.countP_le_length _

/-- In a strictly sorted list, the first `countP (· < ts)` elements are
exactly those below `ts` and the rest are at least `ts`. -/
lemma sorted_countP_split {l : List Nat} (hs : l.Sorted (· < ·)) (ts : Nat) :
    (∀ x ∈ l.take (l.countP (fun x => decide (x < ts))), x < ts) ∧
    (∀ x ∈ l.drop (l.countP (fun x => decide (x < ts))), ts ≤ x) := by
  induction l with
  | nil => simp
  | cons a l ih =>
    rw [List.sorted_cons] at hs
    obtain ⟨ha, hl⟩ := hs
    by_cases h : a < ts
    · rw [List.countP_cons_of_pos _ _ (by simpa using h)]
      rw [List.take_succ_cons, List.drop_succ_cons]
      refine ⟨?_, (ih hl).2⟩
      intro x hx
      rcases List.mem_cons.mp hx with hx | hx
      · simpa [hx] using h
      · exact (ih hl).1 x hx
    · have h0 : (a :: l).countP (fun x => decide (x < ts)) = 0 := by
        rw [List.countP_eq_zero]
        intro x hx
        rcases List.mem_cons.mp hx with hx | hx
        · simpa [hx] using h
        · have : a < x := ha x hx
          simp only [decide_eq_true_eq]
          omega
      rw [h0]
      refine ⟨by simp, ?_⟩
      intro x hx
      rcases List.mem_cons.mp (by simpa using hx) with hx | hx
      · omega
      · have : a < x := ha x hx
        omega

/-- In a strictly sorted list, `ts` occurs iff it sits exactly at index
`countP (· < ts)`. -/
lemma sorted_get_countP_iff_mem {l : List Nat} (hs : l.Sorted (· < ·))
    (ts : Nat) :
    l.get? (l.countP (fun x => decide (x < ts))) = some ts ↔ ts ∈ l := by
  constructor
  · exact fun h => List.get?_mem h
  · intro hmem
    set pos := l.countP (fun x => decide (x < ts)) with hpos
    have hsplit := sorted_countP_split hs ts
    have htake : ts ∉ l.take pos := fun h => lt_irrefl ts (hsplit.1 ts h)
    have hdrop : ts ∈ l.drop pos := by
      have := List.take_append_drop pos l
      rcases List.mem_append.mp (by rw [this]; exact hmem) with h | h
      · exact absurd h htake
      · exact h
    have hdsorted : (l.drop pos).Sorted (· < ·) :=
      hs.sublist (List.drop_sublist pos l)
    rcases hd : l.drop pos with _ | ⟨b, t⟩
    · rw [hd] at hdrop
      exact absurd hdrop (List.not_mem_nil ts)
    · have hb : b = ts := by
        rw [hd] at hdrop
        rcases List.mem_cons.mp hdrop with h | h
        · exact h.symm
        · have hble : ts ≤ b := by
            have := hsplit.2 b (by rw [hd]; exact List.mem_cons_self b t)
            exact this
          rw [hd] at hdsorted
          rw [List.sorted_cons] at hdsorted
          have : b < ts := hdsorted.1 ts h
          omega
      have : l.get? pos = (l.drop pos).get? 0 := by
        simp [List.get?_eq_getElem?, List.getElem?_drop]
      rw [this, hd, hb]
      rfl

/-- Inserting `ts` at index `countP (· < ts)` of a strictly sorted list that
does not contain `ts` yields a strictly sorted list. -/
lemma sorted_insert_countP {l : List Nat} (hs : l.Sorted (· < ·)) (ts : Nat)
    (hnm : ts ∉ l) :
    (l.take (l.countP (fun x => decide (x < ts))) ++
      ts :: l.drop (l.countP (fun x => decide (x < ts)))).Sorted (· < ·) := by
  set pos := l.countP (fun x => decide (x < ts)) with hpos
  have hsplit := sorted_countP_split hs ts
  rw [List.Sorted, List.pairwise_append]
  refine ⟨hs.sublist (List.take_sublist pos l), ?_, ?_⟩
  · rw [List.pairwise_cons]
    refine ⟨?_, hs.sublist (List.drop_sublist pos l)⟩
    intro x hx
    have h1 : ts ≤ x := hsplit.2 x hx
    have h2 : x ≠ ts := by
      intro h
      apply hnm
      rw [← h]
      exact List.mem_of_mem_drop hx
    omega
  · intro a ha b hb
    have h1 : a < ts := hsplit.1 a ha
    rcases List.mem_cons.mp hb with h | h
    · omega
    · have : ts ≤ b := hsplit.2 b h
      omega

/-- `map Prod.fst` of a `fst`-keyed filter over a zip of equal-length lists
is the filter of the first list. -/
lemma map_fst_filter_zip {α β : Type _} (q : α → Bool) :
    ∀ (l : List α) (m : List β), l.length = m.length →
      ((l.zip m).filter (fun p => q p.1)).map Prod.fst = l.filter q
  | [], [], _ => rfl
  | [], _ :: _, h => by simp at h
  | _ :: _, [], h => by simp at h
  | a :: l, b :: m, h => by
    have h' : l.length = m.length := by simpa using h
    by_cases hq : q a = true
    · simp only [List.zip_cons_cons, List.filter_cons, hq, if_true,
        List.map_cons]
      rw [map_fst_filter_zip q l m h']
    · simp only [List.zip_cons_cons, List.filter_cons, hq, if_false]
      exact map_fst_filter_zip q l m h'

/-- One non-full step of `TurboGorilla_AddSampleOptimized`, spelled out. -/
lemma addSampleOptimized_not_full (c : Chunk) (t v : Nat)
    (h : c.num_samples ≠ c.size / SAMPLE_SIZE) :
    TurboGorilla_AddSampleOptimized c t v =
      (ChunkResult.CR_OK,
        { c with
          start_ts := if c.num_samples = 0 then t else c.start_ts
          buffer_ts := c.buffer_ts ++ [t]
          buffer_values := c.buffer_values ++ [v]
          num_samples := c.num_samples + 1 }) := by
  by_cases h0 : c.num_samples = 0
  · rw [h0] at h
    simp [TurboGorilla_AddSampleOptimized, IsChunkFull, h, h0]
  · simp [TurboGorilla_AddSampleOptimized, IsChunkFull, h, h0]

/-- Behaviour of the split copy loop: as long as the chunk never becomes
full, `addSamples` appends all the given samples in order. -/
lemma addSamples_spec (l : List (Nat × Nat)) (c : Chunk)
    (hcap : c.num_samples + l.length ≤ c.size / SAMPLE_SIZE) :
    (addSamples c l).buffer_ts = c.buffer_ts ++ l.map Prod.fst ∧
    (addSamples c l).buffer_values = c.buffer_values ++ l.map Prod.snd ∧
    (addSamples c l).num_samples = c.num_samples + l.length ∧
    (addSamples c l).size = c.size ∧
    (addSamples c l).ts_cap = c.ts_cap ∧
    (addSamples c l).values_cap = c.values_cap ∧
    (addSamples c l).buffer_in_use = c.buffer_in_use ∧
    (addSamples c l).start_ts =
      (if c.num_samples = 0 ∧ l ≠ [] then l.headI.1 else c.start_ts) := by
  induction l generalizing c with
  | nil => simp [addSamples]
  | cons tv rest ih =>
    obtain ⟨t, v⟩ := tv
    have hlen : (((t, v) :: rest).length : Nat) = rest.length + 1 := by simp
    have hnotfull : c.num_samples ≠ c.size / SAMPLE_SIZE := by
      intro h
      rw [hlen, h] at hcap
      omega
    have hstep := addSampleOptimized_not_full c t v hnotfull
    have hrec : addSamples c ((t, v) :: rest) =
        addSamples (TurboGorilla_AddSampleOptimized c t v).2 rest := rfl
    rw [hrec, hstep]
    have hcap' :
        ({ c with
            start_ts := if c.num_samples = 0 then t else c.start_ts
            buffer_ts := c.buffer_ts ++ [t]
            buffer_values := c.buffer_values ++ [v]
            num_samples := c.num_samples + 1 } : Chunk).num_samples +
          rest.length ≤
        ({ c with
            start_ts := if c.num_samples = 0 then t else c.start_ts
            buffer_ts := c.buffer_ts ++ [t]
            buffer_values := c.buffer_values ++ [v]
            num_samples := c.num_samples + 1 } : Chunk).size / SAMPLE_SIZE := by
      simp only
      rw [hlen] at hcap
      omega
    obtain ⟨h1, h2, h3, h4, h5, h6, h7, h8⟩ := ih _ hcap'
    refine ⟨?_, ?_, ?_, ?_, ?_, ?_, ?_, ?_⟩
    · rw [h1]; simp
    · rw [h2]; simp
    · rw [h3]; simp; omega
    · rw [h4]
    · rw [h5]
    · rw [h6]
    · rw [h7]
    · rw [h8]
      by_cases h0 : c.num_samples = 0 <;> simp [h0]

lemma get?_eq_some_getD (l : List Nat) (i : Nat) (h : i < l.length) :
    l.get? i = some (l.getD i 0) := by
  induction l generalizing i with
  | nil => simp at h
  | cons a t ih =>
    cases i with
    | zero => simp [List.getD]
    | succ n =>
      rw [List.get?_cons_succ, List.getD_cons_succ]
      exact ih n (by simpa using h)

/-! ### Claim theorems -/

/-- **C8**: `TurboGorilla_AddSampleOptimized` on a chunk at capacity
(`num_samples == size / SAMPLE_SIZE`) returns the `CR_END` sentinel (not
`CR_ERR`) and leaves the chunk completely unmodified; on a chunk below
capacity it appends the sample at the tail, sets `start_ts` when this is the
very first sample, increments `num_samples` and returns `CR_OK`, for any
timestamp (no ordering check is performed). -/
theorem addSampleOptimized_capacity_behaviour (c : Chunk) (ts v : Nat) :
    (c.num_samples = c.size / SAMPLE_SIZE →
      TurboGorilla_AddSampleOptimized c ts v = (ChunkResult.CR_END, c)) ∧
    (c.num_samples < c.size / SAMPLE_SIZE →
      TurboGorilla_AddSampleOptimized c ts v =
        (ChunkResult.CR_OK,
          { c with
            start_ts := if c.num_samples = 0 then ts else c.start_ts
            buffer_ts := c.buffer_ts ++ [ts]
            buffer_values := c.buffer_values ++ [v]
            num_samples := c.num_samples + 1 })) := by
  constructor
  · intro h
    simp [TurboGorilla_AddSampleOptimized, IsChunkFull, h]
  · intro h
    exact addSampleOptimized_not_full c ts v (by omega)

/-- Witness for C8: the full chunk is refused with `CR_END` untouched, the
non-full chunk takes the appended sample. -/
theorem addSampleOptimized_capacity_behaviour_witness :
    (wchunkFull.num_samples = wchunkFull.size / SAMPLE_SIZE ∧
      TurboGorilla_AddSampleOptimized wchunkFull 99 5 =
        (ChunkResult.CR_END, wchunkFull)) ∧
    (wchunk3.num_samples < wchunk3.size / SAMPLE_SIZE ∧
      TurboGorilla_AddSampleOptimized wchunk3 99 5 =
        (ChunkResult.CR_OK,
          { wchunk3 with
            start_ts := if wchunk3.num_samples = 0 then 99 else wchunk3.start_ts
            buffer_ts := wchunk3.buffer_ts ++ [99]
            buffer_values := wchunk3.buffer_values ++ [5]
            num_samples := wchunk3.num_samples + 1 })) :=
  ⟨⟨by decide,
    (addSampleOptimized_capacity_behaviour wchunkFull 99 5).1 (by decide)⟩,
   ⟨by decide,
    (addSampleOptimized_capacity_behaviour wchunk3 99 5).2 (by decide)⟩⟩

/-- **C10**: on an empty chunk both timestamp getters return the `-1`
sentinel wrapped into the unsigned 64-bit timestamp type (`2^64 - 1`)
without touching the buffer; on a non-empty chunk they return the first and
the last stored timestamp. -/
theorem getFirstLast_timestamp_behaviour (c : Chunk)
    (hlen : c.buffer_ts.length = c.num_samples) :
    (c.num_samples = 0 →
      TurboGorilla_GetFirstTimestamp c = U64_MOD - 1 ∧
      TurboGorilla_GetLastTimestamp c = U64_MOD - 1) ∧
    (0 < c.num_samples →
      c.buffer_ts.get? 0 = some (TurboGorilla_GetFirstTimestamp c) ∧
      c.buffer_ts.get? (c.num_samples - 1) =
        some (TurboGorilla_GetLastTimestamp c)) := by
  constructor
  · intro h
    constructor
    · rw [TurboGorilla_GetFirstTimestamp, if_pos h]
    · rw [TurboGorilla_GetLastTimestamp, if_pos h]
  · intro h
    have hne : ¬ c.num_samples = 0 := by omega
    constructor
    · rw [TurboGorilla_GetFirstTimestamp, if_neg hne]
      exact get?_eq_some_getD _ _ (by omega)
    · rw [TurboGorilla_GetLastTimestamp, if_neg hne]
      exact get?_eq_some_getD _ _ (by omega)

/-- Witness for C10: an empty chunk returns the sentinel, a three-sample
chunk returns its first and last timestamps. -/
theorem getFirstLast_timestamp_behaviour_witness :
    ((TurboGorilla_NewChunk 64 0).buffer_ts.length =
        (TurboGorilla_NewChunk 64 0).num_samples ∧
      TurboGorilla_GetFirstTimestamp (TurboGorilla_NewChunk 64 0) = U64_MOD - 1 ∧
      TurboGorilla_GetLastTimestamp (TurboGorilla_NewChunk 64 0) = U64_MOD - 1) ∧
    (wchunk3.buffer_ts.length = wchunk3.num_samples ∧
      wchunk3.buffer_ts.get? 0 = some (TurboGorilla_GetFirstTimestamp wchunk3) ∧
      wchunk3.buffer_ts.get? (wchunk3.num_samples - 1) =
        some (TurboGorilla_GetLastTimestamp wchunk3)) :=
  ⟨⟨by decide,
    (getFirstLast_timestamp_behaviour (TurboGorilla_NewChunk 64 0)
      (by decide)).1 (by decide)⟩,
   ⟨by decide,
    (getFirstLast_timestamp_behaviour wchunk3 (by decide)).2 (by decide)⟩⟩

/-- **C3** (failing input): deleting `[0, 10]` from a chunk whose single
sample has timestamp 5 removes every sample, and the code then refreshes
`start_ts` from `new_buffer_ts[0]` — an out-of-bounds read of the empty
post-filter buffer, modelled as `none`.  The empty-chunk case is *not*
handled explicitly, contradicting the claim. -/
theorem delRange_all_deleted_reads_out_of_bounds :
    TurboGorilla_DelRange wchunk1 0 10 = none := by decide

/-- **C5** (failing input): deserialization performs no consistency check —
a stream declaring `num_samples = 5` and `size = 64` but carrying two empty
buffers is accepted without any error, yielding a chunk whose buffer length
contradicts its `num_samples`. -/
theorem deserialize_accepts_inconsistent_stream :
    TurboGorilla_Deserialize
        [SerItem.unsigned 64, SerItem.unsigned 0, SerItem.unsigned 5,
         SerItem.unsigned 1, SerItem.strbuf [], SerItem.strbuf []] 0 =
      some corruptChunk ∧
    corruptChunk.buffer_ts.length ≠ corruptChunk.num_samples ∧
    corruptChunk.size < corruptChunk.num_samples * SAMPLE_SIZE := by
  refine ⟨?_, by decide, by decide⟩
  decide

/-- **C6**: serializing a chunk (field order `size`, `start_ts`,
`num_samples`, `in_use`, timestamp bytes, value bytes) and deserializing
with faithful primitive readers reproduces the `size`, `start_ts`,
`num_samples` and both sample sequences exactly. -/
theorem serialize_deserialize_roundtrip (c : Chunk) (g : Nat)
    (hts : c.buffer_ts.length = c.num_samples)
    (hvs : c.buffer_values.length = c.num_samples) :
    TurboGorilla_Deserialize (TurboGorilla_GenericSerialize c) g =
      some
        { start_ts := c.start_ts
          num_samples := c.num_samples
          size := c.size
          buffer_in_use := c.buffer_in_use
          buffer_ts := c.buffer_ts
          buffer_values := c.buffer_values
          ts_cap := c.buffer_ts.length * 8
          values_cap := c.buffer_values.length * 8 } := by
  have h1 : c.buffer_ts.take c.num_samples = c.buffer_ts :=
    take_of_length_eq hts
  have h2 : c.buffer_values.take c.num_samples = c.buffer_values :=
    take_of_length_eq hvs
  cases hu : c.buffer_in_use <;>
    simp [TurboGorilla_Deserialize, TurboGorilla_GenericSerialize,
      readUnsigned, readStringBuffer, TurboGorilla_NewChunk, h1, h2, hu]

/-- Witness for C6: round-trip of the three-sample chunk. -/
theorem serialize_deserialize_roundtrip_witness :
    wchunk3.buffer_ts.length = wchunk3.num_samples ∧
    wchunk3.buffer_values.length = wchunk3.num_samples ∧
    TurboGorilla_Deserialize (TurboGorilla_GenericSerialize wchunk3) 0 =
      some
        { start_ts := wchunk3.start_ts
          num_samples := wchunk3.num_samples
          size := wchunk3.size
          buffer_in_use := wchunk3.buffer_in_use
          buffer_ts := wchunk3.buffer_ts
          buffer_values := wchunk3.buffer_values
          ts_cap := wchunk3.buffer_ts.length * 8
          values_cap := wchunk3.buffer_values.length * 8 } :=
  ⟨by decide, by decide,
   serialize_deserialize_roundtrip wchunk3 0 (by decide) (by decide)⟩

/-- Field-level description of `TurboGorilla_SplitChunk` on a chunk whose
buffers have logical length `num_samples`. -/
lemma splitChunk_fields (c : Chunk) (g : Nat)
    (hts : c.buffer_ts.length = c.num_samples)
    (hvs : c.buffer_values.length = c.num_samples) :
    (TurboGorilla_SplitChunk c g).1 =
      { c with
        num_samples := c.num_samples - c.num_samples / 2
        size := (c.num_samples - c.num_samples / 2) * SAMPLE_SIZE
        buffer_ts := c.buffer_ts.take (c.num_samples - c.num_samples / 2)
        buffer_values :=
          c.buffer_values.take (c.num_samples - c.num_samples / 2)
        ts_cap := (c.num_samples - c.num_samples / 2) * 8
        values_cap := (c.num_samples - c.num_samples / 2) * 8 } ∧
    (TurboGorilla_SplitChunk c g).2.buffer_ts =
      c.buffer_ts.drop (c.num_samples - c.num_samples / 2) ∧
    (TurboGorilla_SplitChunk c g).2.buffer_values =
      c.buffer_values.drop (c.num_samples - c.num_samples / 2) ∧
    (TurboGorilla_SplitChunk c g).2.num_samples = c.num_samples / 2 ∧
    (TurboGorilla_SplitChunk c g).2.size = c.num_samples / 2 * SAMPLE_SIZE ∧
    (TurboGorilla_SplitChunk c g).2.ts_cap =
      c.num_samples / 2 * SAMPLE_SIZE / 2 ∧
    (TurboGorilla_SplitChunk c g).2.values_cap =
      c.num_samples / 2 * SAMPLE_SIZE / 2 ∧
    (0 < c.num_samples / 2 →
      (TurboGorilla_SplitChunk c g).2.buffer_ts.get? 0 =
        some (TurboGorilla_SplitChunk c g).2.start_ts) := by
  have htake : c.buffer_ts.take c.num_samples = c.buffer_ts :=
    take_of_length_eq hts
  have hvtake : c.buffer_values.take c.num_samples = c.buffer_values :=
    take_of_length_eq hvs
  have hdl :
      (c.buffer_ts.drop (c.num_samples - c.num_samples / 2)).length =
        c.num_samples / 2 := by
    rw [List.length_drop, hts]
    omega
  have hdvl :
      (c.buffer_values.drop (c.num_samples - c.num_samples / 2)).length =
        c.num_samples / 2 := by
    rw [List.length_drop, hvs]
    omega
  have hzlen :
      ((c.buffer_ts.drop (c.num_samples - c.num_samples / 2)).zip
        (c.buffer_values.drop (c.num_samples - c.num_samples / 2))).length =
        c.num_samples / 2 := by
    rw [List.length_zip, hdl, hdvl, Nat.min_self]
  have hcap :
      (TurboGorilla_NewChunk (c.num_samples / 2 * SAMPLE_SIZE) g).num_samples +
        ((c.buffer_ts.drop (c.num_samples - c.num_samples / 2)).zip
          (c.buffer_values.drop (c.num_samples - c.num_samples / 2))).length ≤
        (TurboGorilla_NewChunk (c.num_samples / 2 * SAMPLE_SIZE) g).size /
          SAMPLE_SIZE := by
    rw [hzlen]
    simp [TurboGorilla_NewChunk, SAMPLE_SIZE]
  obtain ⟨a1, a2, a3, a4, a5, a6, a7, a8⟩ := addSamples_spec _ _ hcap
  simp only [TurboGorilla_SplitChunk, htake, hvtake]
  refine ⟨trivial, ?_, ?_, ?_, ?_, ?_, ?_, ?_⟩
  · rw [a1]
    simp only [TurboGorilla_NewChunk, List.nil_append]
    exact List.map_fst_zip _ _ (le_of_eq (hdl.trans hdvl.symm))
  · rw [a2]
    simp only [TurboGorilla_NewChunk, List.nil_append]
    exact List.map_snd_zip _ _ (le_of_eq (hdvl.trans hdl.symm))
  · rw [a3, hzlen]
    simp [TurboGorilla_NewChunk]
  · rw [a4]
    rfl
  · rw [a5]
    rfl
  · rw [a6]
    rfl
  · intro hpos
    rcases hz : (c.buffer_ts.drop (c.num_samples - c.num_samples / 2)).zip
        (c.buffer_values.drop (c.num_samples - c.num_samples / 2)) with
      _ | ⟨p, rest⟩
    · rw [hz] at hzlen
      simp at hzlen
      omega
    · rw [hz] at a1 a8
      rw [a1, a8]
      simp [TurboGorilla_NewChunk]

/-- **C7**: splitting a chunk of `n` samples keeps the first `n - n / 2`
samples in the original (left) chunk and moves the tail `n / 2` samples, in
order, into the freshly allocated right chunk: the counts add up to `n`,
every timestamp of the left chunk is at most every timestamp of the right
chunk, and concatenating the left and right sample sequences reproduces the
original sequence exactly. -/
theorem splitChunk_partition (c : Chunk) (g : Nat) (hwf : ChunkWF c) :
    (TurboGorilla_SplitChunk c g).1.num_samples +
      (TurboGorilla_SplitChunk c g).2.num_samples = c.num_samples ∧
    (TurboGorilla_SplitChunk c g).2.num_samples = c.num_samples / 2 ∧
    (TurboGorilla_SplitChunk c g).1.num_samples =
      c.num_samples - c.num_samples / 2 ∧
    (TurboGorilla_SplitChunk c g).1.buffer_ts ++
      (TurboGorilla_SplitChunk c g).2.buffer_ts = c.buffer_ts ∧
    (TurboGorilla_SplitChunk c g).1.buffer_values ++
      (TurboGorilla_SplitChunk c g).2.buffer_values = c.buffer_values ∧
    (∀ t ∈ (TurboGorilla_SplitChunk c g).1.buffer_ts,
      ∀ u ∈ (TurboGorilla_SplitChunk c g).2.buffer_ts, t ≤ u) := by
  obtain ⟨hts, hvs, hsort, _, _⟩ := hwf
  obtain ⟨l1, r1, r2, r3, _, _, _, _⟩ := splitChunk_fields c g hts hvs
  rw [l1, r1, r2, r3]
  simp only
  refine ⟨by omega, trivial, trivial, List.take_append_drop _ _,
    List.take_append_drop _ _, ?_⟩
  intro t ht u hu
  have hpw : (List.take (c.num_samples - c.num_samples / 2) c.buffer_ts ++
      List.drop (c.num_samples - c.num_samples / 2) c.buffer_ts).Pairwise
      (· < ·) := by
    rw [List.take_append_drop]
    exact hsort
  exact le_of_lt ((List.pairwise_append.mp hpw).2.2 t ht u hu)

/-- Witness for C7: splitting the three-sample chunk keeps two samples on
the left and moves one to the right. -/
theorem splitChunk_partition_witness :
    ChunkWF wchunk3 ∧
    ((TurboGorilla_SplitChunk wchunk3 0).1.num_samples +
        (TurboGorilla_SplitChunk wchunk3 0).2.num_samples =
        wchunk3.num_samples ∧
      (TurboGorilla_SplitChunk wchunk3 0).2.num_samples =
        wchunk3.num_samples / 2 ∧
      (TurboGorilla_SplitChunk wchunk3 0).1.num_samples =
        wchunk3.num_samples - wchunk3.num_samples / 2 ∧
      (TurboGorilla_SplitChunk wchunk3 0).1.buffer_ts ++
        (TurboGorilla_SplitChunk wchunk3 0).2.buffer_ts =
        wchunk3.buffer_ts ∧
      (TurboGorilla_SplitChunk wchunk3 0).1.buffer_values ++
        (TurboGorilla_SplitChunk wchunk3 0).2.buffer_values =
        wchunk3.buffer_values ∧
      (∀ t ∈ (TurboGorilla_SplitChunk wchunk3 0).1.buffer_ts,
        ∀ u ∈ (TurboGorilla_SplitChunk wchunk3 0).2.buffer_ts, t ≤ u)) :=
  ⟨by decide, splitChunk_partition wchunk3 0 (by decide)⟩

/-- **C4** (counterexample): range delete does *not* shrink the chunk to its
new logical size — after deleting the second of `wchunkFull`'s two samples
the chunk still reports `size = 32` bytes although one sample needs only
16. -/
theorem shrink_policy_counterexample :
    TurboGorilla_DelRange wchunkFull 20 20 = some (1, wchunkFullDel) ∧
    wchunkFullDel.size ≠ wchunkFullDel.num_samples * SAMPLE_SIZE := by
  refine ⟨?_, by decide⟩
  decide

/-- **C4** (amended): after a split the original chunk's storage is
reallocated down to exactly the new logical size (`size` and the two
buffer allocations are `keep_count * SAMPLE_SIZE` and `keep_count * 8`
bytes); after a range delete `size` is unchanged and the two fresh buffers
are each allocated at half the *old* byte capacity (`size / 2`), so slack
is retained. -/
theorem shrink_policy_split_exact_delete_slack (c : Chunk) (g s e : Nat) :
    ((TurboGorilla_SplitChunk c g).1.size =
        (TurboGorilla_SplitChunk c g).1.num_samples * SAMPLE_SIZE ∧
      (TurboGorilla_SplitChunk c g).1.ts_cap =
        (TurboGorilla_SplitChunk c g).1.num_samples * 8 ∧
      (TurboGorilla_SplitChunk c g).1.values_cap =
        (TurboGorilla_SplitChunk c g).1.num_samples * 8) ∧
    (∀ d c', TurboGorilla_DelRange c s e = some (d, c') →
      c'.size = c.size ∧ c'.ts_cap = c.size / 2 ∧
      c'.values_cap = c.size / 2) := by
  constructor
  · exact ⟨rfl, rfl, rfl⟩
  · intro d c' h
    simp only [TurboGorilla_DelRange] at h
    split at h
    · exact absurd h (by simp)
    · simp only [Option.some.injEq, Prod.mk.injEq] at h
      obtain ⟨_, hc⟩ := h
      subst hc
      exact ⟨rfl, rfl, rfl⟩

/-- Witness for C4's amended theorem: the split part at `wchunk3`, the
delete part at `wchunkFull` with range `[20, 20]`. -/
theorem shrink_policy_split_exact_delete_slack_witness :
    ((TurboGorilla_SplitChunk wchunk3 0).1.size =
        (TurboGorilla_SplitChunk wchunk3 0).1.num_samples * SAMPLE_SIZE ∧
      (TurboGorilla_SplitChunk wchunk3 0).1.ts_cap =
        (TurboGorilla_SplitChunk wchunk3 0).1.num_samples * 8 ∧
      (TurboGorilla_SplitChunk wchunk3 0).1.values_cap =
        (TurboGorilla_SplitChunk wchunk3 0).1.num_samples * 8) ∧
    (TurboGorilla_DelRange wchunkFull 20 20 = some (1, wchunkFullDel) ∧
      wchunkFullDel.size = wchunkFull.size ∧
      wchunkFullDel.ts_cap = wchunkFull.size / 2 ∧
      wchunkFullDel.values_cap = wchunkFull.size / 2) :=
  ⟨(shrink_policy_split_exact_delete_slack wchunk3 0 0 0).1,
   by
    have h : TurboGorilla_DelRange wchunkFull 20 20 =
        some (1, wchunkFullDel) := by decide
    exact ⟨h,
      (shrink_policy_split_exact_delete_slack wchunkFull 0 20 20).2 1
        wchunkFullDel h⟩⟩

/-- Full description of `TurboGorilla_DelRange` when at least one sample
survives. -/
lemma delRange_some_fields (c : Chunk) (s e : Nat)
    (hts : c.buffer_ts.length = c.num_samples)
    (hvs : c.buffer_values.length = c.num_samples)
    (hne : c.buffer_ts.filter
      (fun t => !(decide (s ≤ t) && decide (t ≤ e))) ≠ []) :
    TurboGorilla_DelRange c s e =
      some
        (c.num_samples -
          (c.buffer_ts.filter
            (fun t => !(decide (s ≤ t) && decide (t ≤ e)))).length,
         { start_ts :=
             (c.buffer_ts.filter
               (fun t => !(decide (s ≤ t) && decide (t ≤ e)))).headI
           num_samples :=
             (c.buffer_ts.filter
               (fun t => !(decide (s ≤ t) && decide (t ≤ e)))).length
           size := c.size
           buffer_in_use := c.buffer_in_use
           buffer_ts :=
             c.buffer_ts.filter (fun t => !(decide (s ≤ t) && decide (t ≤ e)))
           buffer_values :=
             ((c.buffer_ts.zip c.buffer_values).filter
               (fun p => !(decide (s ≤ p.1) && decide (p.1 ≤ e)))).map
               Prod.snd
           ts_cap := c.size / 2
           values_cap := c.size / 2 }) := by
  have htake : c.buffer_ts.take c.num_samples = c.buffer_ts :=
    take_of_length_eq hts
  have hvtake : c.buffer_values.take c.num_samples = c.buffer_values :=
    take_of_length_eq hvs
  have hmap : ((c.buffer_ts.zip c.buffer_values).filter
      (fun p => !(decide (s ≤ p.1) && decide (p.1 ≤ e)))).map Prod.fst =
      c.buffer_ts.filter (fun t => !(decide (s ≤ t) && decide (t ≤ e))) :=
    map_fst_filter_zip (fun t => !(decide (s ≤ t) && decide (t ≤ e)))
      c.buffer_ts c.buffer_values (hts.trans hvs.symm)
  have hlen2 : ((c.buffer_ts.zip c.buffer_values).filter
      (fun p => !(decide (s ≤ p.1) && decide (p.1 ≤ e)))).length =
      (c.buffer_ts.filter
        (fun t => !(decide (s ≤ t) && decide (t ≤ e)))).length := by
    rw [← hmap, List.length_map]
  simp only [TurboGorilla_DelRange, htake, hvtake, hmap, hlen2]
  rcases hf : c.buffer_ts.filter
      (fun t => !(decide (s ≤ t) && decide (t ≤ e))) with _ | ⟨t0, rest⟩
  · exact absurd hf hne
  · simp [hf]

/-- **C2**: range delete with inclusive bounds removes exactly the samples
with `s ≤ t ≤ e` (surviving samples keep their relative order — the result
is a filter of the original sequence), sets `num_samples` to the surviving
count, refreshes `start_ts` from the new first element, and returns
`n_before - n_after`.  (Stated for the case where at least one sample
survives; when none survives the code's out-of-bounds `start_ts` refresh
makes the operation undefined, see the C3 analysis.) -/
theorem delRange_semantics (c : Chunk) (s e : Nat) (hwf : ChunkWF c)
    (hne : c.buffer_ts.filter
      (fun t => !(decide (s ≤ t) && decide (t ≤ e))) ≠ []) :
    ∃ d c', TurboGorilla_DelRange c s e = some (d, c') ∧
      c'.buffer_ts =
        c.buffer_ts.filter (fun t => !(decide (s ≤ t) && decide (t ≤ e))) ∧
      (∀ t, t ∈ c'.buffer_ts ↔ t ∈ c.buffer_ts ∧ ¬(s ≤ t ∧ t ≤ e)) ∧
      c'.buffer_values =
        ((c.buffer_ts.zip c.buffer_values).filter
          (fun p => !(decide (s ≤ p.1) && decide (p.1 ≤ e)))).map Prod.snd ∧
      c'.num_samples = c'.buffer_ts.length ∧
      c'.start_ts = c'.buffer_ts.headI ∧
      d = c.num_samples - c'.num_samples := by
  obtain ⟨hts, hvs, _, _, _⟩ := hwf
  refine ⟨_, _, delRange_some_fields c s e hts hvs hne, rfl, ?_, rfl, rfl,
    rfl, rfl⟩
  intro t
  rw [List.mem_filter]
  constructor
  · rintro ⟨h1, h2⟩
    refine ⟨h1, fun hcon => ?_⟩
    rw [decide_eq_true hcon.1, decide_eq_true hcon.2] at h2
    simp at h2
  · rintro ⟨h1, h2⟩
    refine ⟨h1, ?_⟩
    rcases Nat.lt_or_ge t s with h | h
    · rw [decide_eq_false (by omega : ¬ s ≤ t)]
      rfl
    · have h3 : ¬ t ≤ e := fun hc => h2 ⟨h, hc⟩
      rw [decide_eq_false h3, Bool.and_false]
      rfl

/-- Witness for C2: deleting `[20, 20]` from the full two-sample chunk
removes exactly the sample at timestamp 20. -/
theorem delRange_semantics_witness :
    ChunkWF wchunkFull ∧
    wchunkFull.buffer_ts.filter
      (fun t => !(decide (20 ≤ t) && decide (t ≤ 20))) ≠ [] ∧
    (∃ d c', TurboGorilla_DelRange wchunkFull 20 20 = some (d, c') ∧
      c'.buffer_ts =
        wchunkFull.buffer_ts.filter
          (fun t => !(decide (20 ≤ t) && decide (t ≤ 20))) ∧
      (∀ t, t ∈ c'.buffer_ts ↔
        t ∈ wchunkFull.buffer_ts ∧ ¬(20 ≤ t ∧ t ≤ 20)) ∧
      c'.buffer_values =
        ((wchunkFull.buffer_ts.zip wchunkFull.buffer_values).filter
          (fun p => !(decide (20 ≤ p.1) && decide (p.1 ≤ 20)))).map
          Prod.snd ∧
      c'.num_samples = c'.buffer_ts.length ∧
      c'.start_ts = c'.buffer_ts.headI ∧
      d = wchunkFull.num_samples - c'.num_samples) :=
  ⟨by decide, by decide,
   delRange_semantics wchunkFull 20 20 (by decide) (by decide)⟩

/-- `TurboGorilla_UpsertSample`, conflict case: the resolver rejects, the
call fails with `CR_ERR`, the chunk untouched, zero samples reported. -/
lemma upsertSample_conflict_case (resolve : Nat → Nat → Option Nat)
    (c : Chunk) (ts v : Nat)
    (hts : c.buffer_ts.length = c.num_samples)
    (hfound : c.buffer_ts.get?
      (c.buffer_ts.countP (fun x => decide (x < ts))) = some ts)
    (hres : resolve
      (c.buffer_values.getD
        (c.buffer_ts.countP (fun x => decide (x < ts))) 0) v = none) :
    TurboGorilla_UpsertSample resolve c ts v = (ChunkResult.CR_ERR, c, 0) := by
  have htake : c.buffer_ts.take c.num_samples = c.buffer_ts :=
    take_of_length_eq hts
  have hposlt : c.buffer_ts.countP (fun x => decide (x < ts)) <
      c.num_samples := by
    rcases List.get?_eq_some.mp hfound with ⟨h, _⟩
    omega
  simp only [TurboGorilla_UpsertSample, htake]
  rw [if_pos ⟨hposlt, hfound⟩, hres]

/-- `TurboGorilla_UpsertSample`, overwrite case: the resolver returns `w`,
only that slot's value is overwritten, zero samples reported. -/
lemma upsertSample_overwrite_case (resolve : Nat → Nat → Option Nat)
    (c : Chunk) (ts v w : Nat)
    (hts : c.buffer_ts.length = c.num_samples)
    (hfound : c.buffer_ts.get?
      (c.buffer_ts.countP (fun x => decide (x < ts))) = some ts)
    (hres : resolve
      (c.buffer_values.getD
        (c.buffer_ts.countP (fun x => decide (x < ts))) 0) v = some w) :
    TurboGorilla_UpsertSample resolve c ts v =
      (ChunkResult.CR_OK,
        { c with
          buffer_values :=
            c.buffer_values.set
              (c.buffer_ts.countP (fun x => decide (x < ts))) w },
        0) := by
  have htake : c.buffer_ts.take c.num_samples = c.buffer_ts :=
    take_of_length_eq hts
  have hposlt : c.buffer_ts.countP (fun x => decide (x < ts)) <
      c.num_samples := by
    rcases List.get?_eq_some.mp hfound with ⟨h, _⟩
    omega
  simp only [TurboGorilla_UpsertSample, htake]
  rw [if_pos ⟨hposlt, hfound⟩, hres]

/-- `TurboGorilla_UpsertSample`, insert case: the timestamp is absent, so
the sample is inserted at the count-of-smaller-timestamps position, growing
`size` by one `SAMPLE_SIZE` when full and updating `start_ts` when the
position is 0; one sample reported. -/
lemma upsertSample_insert_case (resolve : Nat → Nat → Option Nat)
    (c : Chunk) (ts v : Nat)
    (hts : c.buffer_ts.length = c.num_samples)
    (hnm : ts ∉ c.buffer_ts) :
    TurboGorilla_UpsertSample resolve c ts v =
      (ChunkResult.CR_OK,
        { c with
          start_ts :=
            if c.buffer_ts.countP (fun x => decide (x < ts)) = 0 then ts
            else c.start_ts
          num_samples := c.num_samples + 1
          size := if IsChunkFull c then c.size + SAMPLE_SIZE else c.size
          buffer_ts :=
            c.buffer_ts.take (c.buffer_ts.countP (fun x => decide (x < ts)))
              ++ ts ::
                c.buffer_ts.drop
                  (c.buffer_ts.countP (fun x => decide (x < ts)))
          buffer_values :=
            c.buffer_values.take
                (c.buffer_ts.countP (fun x => decide (x < ts)))
              ++ v ::
                c.buffer_values.drop
                  (c.buffer_ts.countP (fun x => decide (x < ts)))
          ts_cap :=
            if IsChunkFull c then (c.size + SAMPLE_SIZE) / 2 + 8
            else c.ts_cap
          values_cap :=
            if IsChunkFull c then (c.size + SAMPLE_SIZE) / 2 + 8
            else c.values_cap },
        1) := by
  have htake : c.buffer_ts.take c.num_samples = c.buffer_ts :=
    take_of_length_eq hts
  have hnotfound :
      ¬(c.buffer_ts.countP (fun x => decide (x < ts)) < c.num_samples ∧
        c.buffer_ts.get?
          (c.buffer_ts.countP (fun x => decide (x < ts))) = some ts) :=
    fun h => hnm (List.get?_mem h.2)
  simp only [TurboGorilla_UpsertSample, htake]
  rw [if_neg hnotfound]
  by_cases hp0 : c.buffer_ts.countP (fun x => decide (x < ts)) = 0
  · rw [if_pos hp0, if_pos hp0]
    simp only [upsertChunk]
    by_cases hfullb : IsChunkFull c = true
    · have h2 : IsChunkFull { c with start_ts := ts } = true := hfullb
      rw [if_pos h2, if_pos hfullb, if_pos hfullb, if_pos hfullb]
    · have h2 : ¬ IsChunkFull { c with start_ts := ts } = true := hfullb
      rw [if_neg h2, if_neg hfullb, if_neg hfullb, if_neg hfullb]
  · rw [if_neg hp0, if_neg hp0]
    simp only [upsertChunk]
    by_cases hfullb : IsChunkFull c = true
    · rw [if_pos hfullb, if_pos hfullb, if_pos hfullb, if_pos hfullb]
    · rw [if_neg hfullb, if_neg hfullb, if_neg hfullb, if_neg hfullb]

/-- **C1**: upsert of a sample whose timestamp exactly matches an existing
one lets the injected duplicate-policy resolver decide — on conflict the
call returns `CR_ERR` with the chunk unmodified and zero samples reported;
on success only that slot's value is overwritten, `num_samples` unchanged,
zero reported.  When the timestamp is absent, capacity grows by one sample
if the chunk is full, the samples at or after the insertion position (the
count of strictly smaller timestamps) shift one slot right, the new sample
lands there, `num_samples` is incremented, `start_ts` is updated when the
insertion position is 0, and one sample is reported. -/
theorem upsertSample_semantics (resolve : Nat → Nat → Option Nat)
    (c : Chunk) (ts v : Nat) (hwf : ChunkWF c) :
    (∀ old,
      ts ∈ c.buffer_ts →
      c.buffer_values.get?
        (c.buffer_ts.countP (fun x => decide (x < ts))) = some old →
      (resolve old v = none →
        TurboGorilla_UpsertSample resolve c ts v =
          (ChunkResult.CR_ERR, c, 0)) ∧
      (∀ w, resolve old v = some w →
        TurboGorilla_UpsertSample resolve c ts v =
          (ChunkResult.CR_OK,
            { c with
              buffer_values :=
                c.buffer_values.set
                  (c.buffer_ts.countP (fun x => decide (x < ts))) w },
            0))) ∧
    (ts ∉ c.buffer_ts →
      TurboGorilla_UpsertSample resolve c ts v =
        (ChunkResult.CR_OK,
          { c with
            start_ts :=
              if c.buffer_ts.countP (fun x => decide (x < ts)) = 0 then ts
              else c.start_ts
            num_samples := c.num_samples + 1
            size := if IsChunkFull c then c.size + SAMPLE_SIZE else c.size
            buffer_ts :=
              c.buffer_ts.take
                  (c.buffer_ts.countP (fun x => decide (x < ts)))
                ++ ts ::
                  c.buffer_ts.drop
                    (c.buffer_ts.countP (fun x => decide (x < ts)))
            buffer_values :=
              c.buffer_values.take
                  (c.buffer_ts.countP (fun x => decide (x < ts)))
                ++ v ::
                  c.buffer_values.drop
                    (c.buffer_ts.countP (fun x => decide (x < ts)))
            ts_cap :=
              if IsChunkFull c then (c.size + SAMPLE_SIZE) / 2 + 8
              else c.ts_cap
            values_cap :=
              if IsChunkFull c then (c.size + SAMPLE_SIZE) / 2 + 8
              else c.values_cap },
          1)) := by
  obtain ⟨hts, hvs, hsort, _, _⟩ := hwf
  constructor
  · intro old hmem hold
    have hfound : c.buffer_ts.get?
        (c.buffer_ts.countP (fun x => decide (x < ts))) = some ts :=
      (sorted_get_countP_iff_mem hsort ts).mpr hmem
    have hposlt : c.buffer_ts.countP (fun x => decide (x < ts)) <
        c.num_samples := by
      rcases List.get?_eq_some.mp hfound with ⟨h, _⟩
      omega
    have hgetD : c.buffer_values.getD
        (c.buffer_ts.countP (fun x => decide (x < ts))) 0 = old := by
      have h2 := get?_eq_some_getD c.buffer_values
        (c.buffer_ts.countP (fun x => decide (x < ts))) (by omega)
      rw [hold] at h2
      exact (Option.some_inj.mp h2).symm
    constructor
    · intro hres
      exact upsertSample_conflict_case resolve c ts v hts hfound
        (by rw [hgetD]; exact hres)
    · intro w hres
      exact upsertSample_overwrite_case resolve c ts v w hts hfound
        (by rw [hgetD]; exact hres)
  · intro hnm
    exact upsertSample_insert_case resolve c ts v hts hnm

/-- Witness for C1: on the three-sample chunk, upserting timestamp 20 under
the BLOCK policy fails with the chunk untouched, under the LAST policy it
overwrites only slot 1, and upserting the absent timestamp 15 inserts at
position 1. -/
theorem upsertSample_semantics_witness :
    ChunkWF wchunk3 ∧
    20 ∈ wchunk3.buffer_ts ∧
    wchunk3.buffer_values.get?
      (wchunk3.buffer_ts.countP (fun x => decide (x < 20))) = some 2 ∧
    resolveBlock 2 9 = none ∧
    TurboGorilla_UpsertSample resolveBlock wchunk3 20 9 =
      (ChunkResult.CR_ERR, wchunk3, 0) ∧
    resolveLast 2 9 = some 9 ∧
    TurboGorilla_UpsertSample resolveLast wchunk3 20 9 =
      (ChunkResult.CR_OK,
        { wchunk3 with
          buffer_values :=
            wchunk3.buffer_values.set
              (wchunk3.buffer_ts.countP (fun x => decide (x < 20))) 9 },
        0) ∧
    15 ∉ wchunk3.buffer_ts ∧
    TurboGorilla_UpsertSample resolveLast wchunk3 15 9 =
      (ChunkResult.CR_OK,
        { wchunk3 with
          start_ts :=
            if wchunk3.buffer_ts.countP (fun x => decide (x < 15)) = 0
            then 15 else wchunk3.start_ts
          num_samples := wchunk3.num_samples + 1
          size :=
            if IsChunkFull wchunk3 then wchunk3.size + SAMPLE_SIZE
            else wchunk3.size
          buffer_ts :=
            wchunk3.buffer_ts.take
                (wchunk3.buffer_ts.countP (fun x => decide (x < 15)))
              ++ 15 ::
                wchunk3.buffer_ts.drop
                  (wchunk3.buffer_ts.countP (fun x => decide (x < 15)))
          buffer_values :=
            wchunk3.buffer_values.take
                (wchunk3.buffer_ts.countP (fun x => decide (x < 15)))
              ++ 9 ::
                wchunk3.buffer_values.drop
                  (wchunk3.buffer_ts.countP (fun x => decide (x < 15)))
          ts_cap :=
            if IsChunkFull wchunk3 then (wchunk3.size + SAMPLE_SIZE) / 2 + 8
            else wchunk3.ts_cap
          values_cap :=
            if IsChunkFull wchunk3 then (wchunk3.size + SAMPLE_SIZE) / 2 + 8
            else wchunk3.values_cap },
        1) :=
  ⟨by decide, by decide, by decide, by decide,
   ((upsertSample_semantics resolveBlock wchunk3 20 9 (by decide)).1 2
     (by decide) (by decide)).1 (by decide),
   by decide,
   ((upsertSample_semantics resolveLast wchunk3 20 9 (by decide)).1 2
     (by decide) (by decide)).2 9 (by decide),
   by decide,
   (upsertSample_semantics resolveLast wchunk3 15 9 (by decide)).2
     (by decide)⟩

/-- The append path preserves the chunk invariants when the caller honours
the monotonic-timestamp precondition. -/
lemma chunkWF_addSample (c : Chunk) (ts v : Nat) (hwf : ChunkWF c)
    (hmono : ∀ t ∈ c.buffer_ts, t < ts) :
    ChunkWF (TurboGorilla_AddSampleOptimized c ts v).2 := by
  obtain ⟨hts, hvs, hsort, hcap, hstart⟩ := hwf
  by_cases hfull : c.num_samples = c.size / SAMPLE_SIZE
  · have : TurboGorilla_AddSampleOptimized c ts v = (ChunkResult.CR_END, c) := by
      simp [TurboGorilla_AddSampleOptimized, IsChunkFull, hfull]
    rw [this]
    exact ⟨hts, hvs, hsort, hcap, hstart⟩
  · rw [addSampleOptimized_not_full c ts v hfull]
    refine ⟨?_, ?_, ?_, ?_, ?_⟩
    · simp only [List.length_append, List.length_cons, List.length_nil]
      omega
    · simp only [List.length_append, List.length_cons, List.length_nil]
      omega
    · rw [List.Sorted, List.pairwise_append]
      refine ⟨hsort, List.pairwise_singleton _ _, ?_⟩
      intro a ha b hb
      rw [List.mem_singleton] at hb
      exact hb ▸ hmono a ha
    · simp only [SAMPLE_SIZE] at hcap hfull ⊢
      omega
    · intro _
      by_cases h0 : c.num_samples = 0
      · have hl : c.buffer_ts = [] := List.length_eq_zero.mp (by omega)
        simp [h0, hl]
      · have hlen0 : 0 < c.buffer_ts.length := by omega
        rw [if_neg h0, List.get?_append hlen0]
        exact hstart (by omega)

/-- The upsert path preserves the chunk invariants for every duplicate
policy. -/
lemma chunkWF_upsert (resolve : Nat → Nat → Option Nat) (c : Chunk)
    (ts v : Nat) (hwf : ChunkWF c) :
    ChunkWF (TurboGorilla_UpsertSample resolve c ts v).2.1 := by
  obtain ⟨hts, hvs, hsort, hcap, hstart⟩ := hwf
  have hposle : c.buffer_ts.countP (fun x => decide (x < ts)) ≤
      c.buffer_ts.length := countP_lt_le_length c.buffer_ts ts
  by_cases hmem : ts ∈ c.buffer_ts
  · have hfound : c.buffer_ts.get?
        (c.buffer_ts.countP (fun x => decide (x < ts))) = some ts :=
      (sorted_get_countP_iff_mem hsort ts).mpr hmem
    rcases hres : resolve
        (c.buffer_values.getD
          (c.buffer_ts.countP (fun x => decide (x < ts))) 0) v with _ | w
    · rw [upsertSample_conflict_case resolve c ts v hts hfound hres]
      exact ⟨hts, hvs, hsort, hcap, hstart⟩
    · rw [upsertSample_overwrite_case resolve c ts v w hts hfound hres]
      exact ⟨hts, by rw [List.length_set]; exact hvs, hsort, hcap, hstart⟩
  · rw [upsertSample_insert_case resolve c ts v hts hmem]
    refine ⟨?_, ?_, ?_, ?_, ?_⟩
    · simp only [List.length_append, List.length_cons, List.length_take,
        List.length_drop]
      omega
    · simp only [List.length_append, List.length_cons, List.length_take,
        List.length_drop]
      omega
    · exact sorted_insert_countP hsort ts hmem
    · by_cases hfullb : IsChunkFull c = true
      · rw [if_pos hfullb, if_pos hfullb]
        simp only [SAMPLE_SIZE] at hcap ⊢
        omega
      · have hne : ¬ c.num_samples = c.size / SAMPLE_SIZE := by
          intro h
          exact hfullb (by simp [IsChunkFull, h])
        rw [if_neg hfullb, if_neg hfullb]
        simp only [SAMPLE_SIZE] at hcap hne ⊢
        omega
    · intro _
      by_cases hp0 : c.buffer_ts.countP (fun x => decide (x < ts)) = 0
      · rw [if_pos hp0, hp0]
        simp
      · have hp1 : 0 < c.buffer_ts.countP (fun x => decide (x < ts)) := by
          omega
        have hl0 : 0 < c.buffer_ts.length := by omega
        have htl : 0 < (c.buffer_ts.take
            (c.buffer_ts.countP (fun x => decide (x < ts)))).length := by
          rw [List.length_take]
          omega
        rw [if_neg hp0, List.get?_append htl, List.get?_take hp1]
        exact hstart (by omega)

/-- Splitting preserves the chunk invariants on both resulting chunks. -/
lemma chunkWF_split (c : Chunk) (g : Nat) (hwf : ChunkWF c) :
    ChunkWF (TurboGorilla_SplitChunk c g).1 ∧
    ChunkWF (TurboGorilla_SplitChunk c g).2 := by
  obtain ⟨hts, hvs, hsort, hcap, hstart⟩ := hwf
  obtain ⟨l1, r1, r2, r3, r4, _, _, r7⟩ := splitChunk_fields c g hts hvs
  constructor
  · rw [l1]
    refine ⟨?_, ?_, ?_, ?_, ?_⟩
    · simp only [List.length_take]
      omega
    · simp only [List.length_take]
      omega
    · exact hsort.sublist (List.take_sublist _ _)
    · exact le_rfl
    · intro h0
      have hk : 0 < c.num_samples - c.num_samples / 2 := h0
      rw [List.get?_take hk]
      exact hstart (by omega)
  · refine ⟨?_, ?_, ?_, ?_, ?_⟩
    · rw [r1, r3, List.length_drop]
      omega
    · rw [r2, r3, List.length_drop]
      omega
    · rw [r1]
      exact hsort.sublist (List.drop_sublist _ _)
    · rw [r3, r4]
    · intro h0
      rw [r3] at h0
      exact r7 h0

/-- When the delete range swallows every sample, `TurboGorilla_DelRange`
hits the out-of-bounds `start_ts` refresh and is undefined. -/
lemma delRange_none_of_all_removed (c : Chunk) (s e : Nat)
    (hts : c.buffer_ts.length = c.num_samples)
    (hvs : c.buffer_values.length = c.num_samples)
    (hf : c.buffer_ts.filter
      (fun t => !(decide (s ≤ t) && decide (t ≤ e))) = []) :
    TurboGorilla_DelRange c s e = none := by
  have htake : c.buffer_ts.take c.num_samples = c.buffer_ts :=
    take_of_length_eq hts
  have hvtake : c.buffer_values.take c.num_samples = c.buffer_values :=
    take_of_length_eq hvs
  have hmap : ((c.buffer_ts.zip c.buffer_values).filter
      (fun p => !(decide (s ≤ p.1) && decide (p.1 ≤ e)))).map Prod.fst =
      c.buffer_ts.filter (fun t => !(decide (s ≤ t) && decide (t ≤ e))) :=
    map_fst_filter_zip (fun t => !(decide (s ≤ t) && decide (t ≤ e)))
      c.buffer_ts c.buffer_values (hts.trans hvs.symm)
  simp only [TurboGorilla_DelRange, htake, hvtake, hmap, hf]

/-- A defined range delete preserves the chunk invariants. -/
lemma chunkWF_delRange (c : Chunk) (s e : Nat) (hwf : ChunkWF c) :
    ∀ d c', TurboGorilla_DelRange c s e = some (d, c') → ChunkWF c' := by
  obtain ⟨hts, hvs, hsort, hcap, hstart⟩ := hwf
  intro d c' h
  by_cases hf : c.buffer_ts.filter
      (fun t => !(decide (s ≤ t) && decide (t ≤ e))) = []
  · rw [delRange_none_of_all_removed c s e hts hvs hf] at h
    exact absurd h (by simp)
  · rw [delRange_some_fields c s e hts hvs hf] at h
    simp only [Option.some.injEq, Prod.mk.injEq] at h
    obtain ⟨_, hc⟩ := h
    subst hc
    have hmap : ((c.buffer_ts.zip c.buffer_values).filter
        (fun p => !(decide (s ≤ p.1) && decide (p.1 ≤ e)))).map Prod.fst =
        c.buffer_ts.filter
          (fun t => !(decide (s ≤ t) && decide (t ≤ e))) :=
      map_fst_filter_zip (fun t => !(decide (s ≤ t) && decide (t ≤ e)))
        c.buffer_ts c.buffer_values (hts.trans hvs.symm)
    refine ⟨rfl, ?_, ?_, ?_, ?_⟩
    · rw [List.length_map, ← hmap, List.length_map]
    · exact hsort.sublist (List.filter_sublist _)
    · have h1 : (c.buffer_ts.filter
          (fun t => !(decide (s ≤ t) && decide (t ≤ e)))).length ≤
          c.buffer_ts.length := List.length_filter_le _ _
      simp only [SAMPLE_SIZE] at hcap ⊢
      omega
    · intro h0
      rcases hfc : c.buffer_ts.filter
          (fun t => !(decide (s ≤ t) && decide (t ≤ e))) with _ | ⟨t0, rest⟩
      · exact absurd hfc hf
      · simp

/-- **C9**: from a chunk satisfying the data-model invariants, every public
mutating operation that returns success preserves them — append under the
caller-guaranteed monotonic-timestamp precondition, upsert under any
duplicate policy, split (both resulting chunks), and any defined range
delete: the timestamp buffer stays strictly ascending with no duplicates,
`num_samples * SAMPLE_SIZE ≤ size`, and `start_ts` equals the first stored
timestamp whenever samples exist. -/
theorem invariants_preserved (c : Chunk) (hwf : ChunkWF c) :
    (∀ ts v, (∀ t ∈ c.buffer_ts, t < ts) →
      ChunkWF (TurboGorilla_AddSampleOptimized c ts v).2) ∧
    (∀ resolve ts v,
      ChunkWF (TurboGorilla_UpsertSample resolve c ts v).2.1) ∧
    (∀ g, ChunkWF (TurboGorilla_SplitChunk c g).1 ∧
      ChunkWF (TurboGorilla_SplitChunk c g).2) ∧
    (∀ s e d c', TurboGorilla_DelRange c s e = some (d, c') → ChunkWF c') :=
  ⟨fun ts v hmono => chunkWF_addSample c ts v hwf hmono,
   fun resolve ts v => chunkWF_upsert resolve c ts v hwf,
   fun g => chunkWF_split c g hwf,
   fun s e => chunkWF_delRange c s e hwf⟩

/-- Witness for C9 at the concrete three-sample chunk. -/
theorem invariants_preserved_witness :
    ChunkWF wchunk3 ∧
    ((∀ ts v, (∀ t ∈ wchunk3.buffer_ts, t < ts) →
      ChunkWF (TurboGorilla_AddSampleOptimized wchunk3 ts v).2) ∧
    (∀ resolve ts v,
      ChunkWF (TurboGorilla_UpsertSample resolve wchunk3 ts v).2.1) ∧
    (∀ g, ChunkWF (TurboGorilla_SplitChunk wchunk3 g).1 ∧
      ChunkWF (TurboGorilla_SplitChunk wchunk3 g).2) ∧
    (∀ s e d c', TurboGorilla_DelRange wchunk3 s e = some (d, c') →
      ChunkWF c')) :=
  ⟨by decide, invariants_preserved wchunk3 (by decide)⟩

end TurboGorilla
